import Mathlib

/-!
Verification of `unify_arrow.py` against its specification.

The script processes SVG vector data: it tokenizes and samples path
commands into polygons, classifies small near-square paths as dots,
simplifies polylines with Ramer-Douglas-Peucker, and optionally
rebuilds a mirror-symmetric arrow outline.

Embedding conventions:
 - Components whose arithmetic stays inside the field operations
   (path parser, dot classifier, symmetry reconstructor) are embedded
   over `ℚ`, which makes them computable and lets concrete runs be
   settled by `decide`.
 - Components that use `np.hypot` (a square root) - the perpendicular
   distance, the dedup pre-pass and the RDP simplifier - are embedded
   over `ℝ` with `Real.sqrt`.
 - The Python RDP recursion does not terminate for a negative
   tolerance (a length-2 sublist recurses on itself), so it is
   embedded with an explicit fuel parameter returning `Option`;
   `none` models divergence or an uncaught index error.
-/

set_option maxHeartbeats 1000000

/-! ### Rational-coordinate components: tokenizer/sampler, classifier, symmetrizer -/

/-- A point, `(x, y)` in SVG user space. -/
abbrev Pt := ℚ × ℚ

/-- A token produced by `tokenize_path`: a single command letter or a
numeric literal.  The regex in the source yields exactly these two
token shapes. -/
inductive Tok where
  | cmd (c : Char)
  | num (x : ℚ)
deriving DecidableEq

/-- The flush step of `parse_svg_paths_basic`:
`if current_poly: polygons.append(current_poly)`. -/
def flushPoly (polys : List (List Pt)) (poly : List Pt) : List (List Pt) :=
  if poly = [] then polys else polys ++ [poly]

/-- One evaluation of the standard cubic Bezier formula, as written in
`sample_cubic_bezier`. -/
def bezierPoint (p0 p1 p2 p3 : Pt) (t : ℚ) : Pt :=
  ((1 - t) ^ 3 * p0.1 + 3 * (1 - t) ^ 2 * t * p1.1 + 3 * (1 - t) * t ^ 2 * p2.1 + t ^ 3 * p3.1,
   (1 - t) ^ 3 * p0.2 + 3 * (1 - t) ^ 2 * t * p1.2 + 3 * (1 - t) * t ^ 2 * p2.2 + t ^ 3 * p3.2)

/-- `sample_cubic_bezier(p0, p1, p2, p3, steps=20)`:
`np.linspace(0, 1, 20)` is the 20 parameter values `k / 19`. -/
def sample_cubic_bezier (p0 p1 p2 p3 : Pt) : List Pt :=
  (List.range 20).map fun k => bezierPoint p0 p1 p2 p3 ((k : ℚ) / 19)

/-- The token-consuming loop of `parse_svg_paths_basic`.  State:
remaining tokens, `current_poly`, `current_pos`, `start_pos`,
completed `polygons`.  Faithful to the Python control flow:
 - running out of tokens anywhere raises `StopIteration`, which the
   enclosing `try` catches: the in-progress polygon is flushed and the
   completed list returned normally (`.ok`);
 - `float()` applied to a command letter raises an uncaught
   `ValueError`, modelled as `.error ()`;
 - a command letter other than `M`, `L`, `C`, `Z`/`z` matches no
   branch and is silently skipped, as is a numeric token read in
   command position. -/
def parseLoop : List Tok → List Pt → Pt → Pt → List (List Pt) → Except Unit (List (List Pt))
  | [], poly, _, _, polys => .ok (flushPoly polys poly)
  | .num _ :: rest, poly, pos, start, polys => parseLoop rest poly pos start polys
  | .cmd c :: rest, poly, pos, start, polys =>
    if c = 'M' then
      match rest with
      | .num x :: .num y :: rest2 => parseLoop rest2 [(x, y)] (x, y) (x, y) (flushPoly polys poly)
      | .cmd _ :: _ => .error ()
      | .num _ :: .cmd _ :: _ => .error ()
      | _ => .ok (flushPoly polys poly)
    else if c = 'L' then
      match rest with
      | .num x :: .num y :: rest2 =>
        parseLoop rest2 (poly ++ [(x, y)]) (x, y) start polys
      | .cmd _ :: _ => .error ()
      | .num _ :: .cmd _ :: _ => .error ()
      | _ => .ok (flushPoly polys poly)
    else if c = 'C' then
      match rest with
      | .num c1x :: .num c1y :: .num c2x :: .num c2y :: .num ex :: .num ey :: rest2 =>
        parseLoop rest2
          (poly ++ (sample_cubic_bezier pos (c1x, c1y) (c2x, c2y) (ex, ey)).tail)
          (ex, ey) start polys
      | .cmd _ :: _ => .error ()
      | .num _ :: .cmd _ :: _ => .error ()
      | .num _ :: .num _ :: .cmd _ :: _ => .error ()
      | .num _ :: .num _ :: .num _ :: .cmd _ :: _ => .error ()
      | .num _ :: .num _ :: .num _ :: .num _ :: .cmd _ :: _ => .error ()
      | .num _ :: .num _ :: .num _ :: .num _ :: .num _ :: .cmd _ :: _ => .error ()
      | _ => .ok (flushPoly polys poly)
    else if c.toUpper = 'Z' then
      parseLoop rest (poly ++ [start]) start start polys
    else
      parseLoop rest poly pos start polys

/-- `parse_svg_paths_basic`, on an already tokenized path data string. -/
def parse_svg_paths_basic (tokens : List Tok) : Except Unit (List (List Pt)) :=
  parseLoop tokens [] (0, 0) (0, 0) []

/-- `ratio = w/h if h!=0 else 0` from `extract_paths_from_file`. -/
def ratioOf (w h : ℚ) : ℚ := if h ≠ 0 then w / h else 0

/-- Result of classifying one path from its bounding box. -/
inductive PathKind where
  | dot (c : ℚ × ℚ × ℚ)
  | arrow
deriving DecidableEq

/-- The classification step of `extract_paths_from_file`:
`is_dot = (w < 30 and h < 30 and 0.5 < ratio < 2.0)`; a dot records
`(cx, cy, (w+h)/4)`, anything else is an arrow fragment. -/
def classifyBBox (w h cx cy : ℚ) : PathKind :=
  if w < 30 ∧ h < 30 ∧ 0.5 < ratioOf w h ∧ ratioOf w h < 2.0 then
    .dot (cx, cy, (w + h) / 4)
  else
    .arrow

/-- Modelled from the spec: the dot criterion as the specification
words it, with the CLOSED aspect-ratio interval `[0.5, 2.0]`.  Used
only to compare the spec wording with `classifyBBox`, whose interval
is open. -/
def isDotSpec (w h : ℚ) : Prop :=
  w < 30 ∧ h < 30 ∧ 0.5 ≤ ratioOf w h ∧ ratioOf w h ≤ 2.0

/-- List indexing with the Python in-range behavior (all accesses made
by the source on these lists are in range). -/
def qnth (l : List Pt) (i : ℕ) : Pt := l.getD i (0, 0)

/-- Consecutive-duplicate removal loop from `symmetrize_arrow`
(`if p != unique_points[-1]: unique_points.append(p)`), tracking the
most recently kept point. -/
def uniqAux : Pt → List Pt → List Pt
  | _, [] => []
  | prev, p :: ps => if p ≠ prev then p :: uniqAux p ps else uniqAux prev ps

/-- `unique_points` built by `symmetrize_arrow` from its input. -/
def uniquePoints : List Pt → List Pt
  | [] => []
  | p :: ps => p :: uniqAux p ps

/-- `max(range(len(unique_points)), key=lambda i: unique_points[i][0])`:
Python max keeps the first maximum, replacing only on a strictly
greater key. -/
def tipIdx (u : List Pt) : ℕ :=
  (List.range u.length).foldl (fun best i => if (qnth u i).1 > (qnth u best).1 then i else best) 0

/-- `rotated = unique_points[tip_idx:] + unique_points[:tip_idx]`. -/
def rotatedAt (u : List Pt) (k : ℕ) : List Pt := u.drop k ++ u.take k

/-- Reflection across the horizontal axis `y = ay`:
`(p[0], 2*axis_y - p[1])`. -/
def mirrorY (ay : ℚ) (p : Pt) : Pt := (p.1, 2 * ay - p.2)

/-- Stable insertion (descending x) used to embed
`sorted(candidates, key=lambda p: -p[0])`: a later element is placed
after every earlier element whose x is greater than or equal to its
own, which is exactly the stable descending order Python sorted
produces. -/
def insertDescX (p : Pt) : List Pt → List Pt
  | [] => [p]
  | q :: qs => if p.1 ≤ q.1 then q :: insertDescX p qs else p :: q :: qs

/-- Stable sort by descending x, extensionally equal to
`sorted(candidates, key=lambda p: -p[0])`. -/
def sortDescX (l : List Pt) : List Pt := l.foldl (fun acc p => insertDescX p acc) []

/-- The top-arm collection of `symmetrize_arrow` (its three branches:
forward walk, backward walk, geometric fallback filter). -/
def topArm (points : List Pt) : List Pt :=
  let u := uniquePoints points
  let k := tipIdx u
  let tip := qnth u k
  let ay := tip.2
  let rot := rotatedAt u k
  let pNext := if rot.length > 1 then qnth rot 1 else qnth rot 0
  let pPrev := rot.getLastD (0, 0)
  if pNext.2 < ay then
    (rot.drop 1).takeWhile (fun p => decide (p.2 ≤ ay + 0.1))
  else if pPrev.2 < ay then
    (rot.dropLast.reverse).takeWhile (fun p => decide (p.2 ≤ ay + 0.1))
  else
    (sortDescX (u.filter (fun p => decide (p.2 ≤ ay + 0.5)))).filter (fun p => decide (p ≠ tip))

/-- The tip: `unique_points[tip_idx]`. -/
def tipOf (points : List Pt) : Pt := qnth (uniquePoints points) (tipIdx (uniquePoints points))

/-- The collected top arm with its last point (the notch) forced onto
the horizontal axis through the tip: `top_points[-1] = (notch[0], axis_y)`. -/
def notchedTop (points : List Pt) : List Pt :=
  (topArm points).dropLast ++ [(((topArm points).getLastD (0, 0)).1, (tipOf points).2)]

/-- The mirrored bottom arm:
`for p in reversed(top_points[:-1]): bottom_points.append((p[0], 2*axis_y - p[1]))`. -/
def bottomArm (points : List Pt) : List Pt :=
  ((notchedTop points).dropLast.reverse).map (mirrorY (tipOf points).2)

/-- `symmetrize_arrow`.  Returns the input unchanged when the
deduplicated list is empty (empty input) or when the collected top arm
is empty (the fail-safe branch); otherwise builds
tip, top arm (notched), mirrored bottom arm, tip. -/
def symmetrize_arrow (points : List Pt) : List Pt :=
  if uniquePoints points = [] then points
  else if topArm points = [] then points
  else tipOf points :: (notchedTop points ++ bottomArm points ++ [tipOf points])

/-! ### Real-coordinate components: perpendicular distance, dedup pre-pass, RDP -/

/-- A point for the distance-based components. -/
abbrev Point := ℝ × ℝ

/-- `np.hypot(dx, dy)`. -/
noncomputable def hypot (dx dy : ℝ) : ℝ := Real.sqrt (dx ^ 2 + dy ^ 2)

open Classical in
/-- `perpendicular_distance(point, start, end)`: Euclidean distance to
the single point when `start == end`, else the 2D cross-product
magnitude over the segment length.  (`end` is a reserved word in Lean,
hence `finish`.) -/
noncomputable def perpendicular_distance (point start finish : Point) : ℝ :=
  if start = finish then
    hypot (point.1 - start.1) (point.2 - start.2)
  else
    |(finish.2 - start.2) * point.1 - (finish.1 - start.1) * point.2 +
        finish.1 * start.2 - finish.2 * start.1| /
      hypot (finish.1 - start.1) (finish.2 - start.2)

/-- List indexing with default, for the always-in-range accesses
`points[i]` made by the simplifier. -/
def nthP (l : List Point) (i : ℕ) : Point := l.getD i (0, 0)

open Classical in
/-- The scan `for i in range(1, end): d = ...; if d > dmax: index, dmax = i, d`
of `ramer_douglas_peucker`: `rdpLoop d n` processes `i = 1 .. n`
starting from `index = 0, dmax = 0.0`, so the Python loop over
`range(1, end)` is `rdpLoop d (end - 1)`.  Ties keep the first
(lowest-index) maximum, exactly as the strict `>` does. -/
noncomputable def rdpLoop (d : ℕ → ℝ) : ℕ → ℕ × ℝ
  | 0 => (0, 0)
  | n + 1 =>
    let p := rdpLoop d n
    if d (n + 1) > p.2 then (n + 1, d (n + 1)) else p

/-- The distance function scanned by one `ramer_douglas_peucker` call:
`perpendicular_distance(points[i], points[0], points[end])`. -/
noncomputable def rdpD (points : List Point) : ℕ → ℝ := fun i =>
  perpendicular_distance (nthP points i) (nthP points 0) (nthP points (points.length - 1))

open Classical in
/-- `ramer_douglas_peucker(points, epsilon)`.  The Python recursion
does not terminate when `dmax > epsilon` holds with `index = 0`
(which happens exactly when `epsilon < 0`), and an empty input raises
an IndexError; both are modelled by `none`, via an explicit fuel
parameter.  `fuel = len(points)` is enough for every terminating run,
since each recursive call is on a strictly shorter list. -/
noncomputable def ramer_douglas_peucker : ℕ → List Point → ℝ → Option (List Point)
  | 0, _, _ => none
  | _ + 1, [], _ => none
  | fuel + 1, points, epsilon =>
    let r := rdpLoop (rdpD points) (points.length - 1 - 1)
    if r.2 > epsilon then
      match ramer_douglas_peucker fuel (points.take (r.1 + 1)) epsilon,
            ramer_douglas_peucker fuel (points.drop r.1) epsilon with
      | some r1, some r2 => some (r1.dropLast ++ r2)
      | _, _ => none
    else
      some [nthP points 0, nthP points (points.length - 1)]

open Classical in
/-- The loop of the dedup pre-pass in `simplify_points`
(`if np.hypot(p[0]-dedup[-1][0], p[1]-dedup[-1][1]) > 0.5: dedup.append(p)`),
tracking the most recently kept point. -/
noncomputable def dedupAux : Point → List Point → List Point
  | _, [] => []
  | prev, p :: ps =>
    if hypot (p.1 - prev.1) (p.2 - prev.2) > 0.5 then p :: dedupAux p ps
    else dedupAux prev ps

open Classical in
/-- The dedup pre-pass of `simplify_points`: start from `[points[0]]`,
run the loop over `points[1:]`, then the trailing
`if np.hypot(points[-1]... dedup[-1]...) > 0.5: dedup.append(points[-1])`. -/
noncomputable def dedupPass : List Point → List Point
  | [] => []
  | p0 :: rest =>
    let kept := p0 :: dedupAux p0 rest
    let lastPt := rest.getLastD p0
    let lastKept := (dedupAux p0 rest).getLastD p0
    if hypot (lastPt.1 - lastKept.1) (lastPt.2 - lastKept.2) > 0.5 then kept ++ [lastPt]
    else kept

/-- `simplify_points(points, tolerance)`: dedup pre-pass, then RDP,
run with the canonical sufficient fuel. -/
noncomputable def simplify_points (points : List Point) (tolerance : ℝ) : Option (List Point) :=
  ramer_douglas_peucker (dedupPass points).length (dedupPass points) tolerance

/-! ### Helper lemmas -/

lemma qnth_eq_getElem (l : List Pt) (i : ℕ) (h : i < l.length) : qnth l i = l[i] := by
  simp [qnth, List.getD_eq_getElem?_getD, List.getElem?_eq_getElem h]

lemma uniquePoints_eq_nil {points : List Pt} (h : uniquePoints points = []) : points = [] := by
  cases points with
  | nil => rfl
  | cons p ps => simp [uniquePoints] at h

lemma topArm_nil : topArm [] = [] := by
  norm_num [topArm, uniquePoints, tipIdx, qnth, rotatedAt, sortDescX]

/-! ### Claim theorems: classifier -/

/-- Claim C4, counterexample to the claim as stated: a bounding box of
width 20 and height 10 has aspect ratio exactly 2.0, which lies in the
closed interval [0.5, 2.0] the claim (and spec) give, yet the code
classifies it as an arrow fragment, because the code tests the strict
inequality `0.5 < ratio < 2.0`. -/
theorem C4_closed_interval_counterexample :
    isDotSpec 20 10 ∧ classifyBBox 20 10 7 9 = PathKind.arrow := by
  constructor
  · norm_num [isDotSpec, ratioOf]
  · norm_num [classifyBBox, ratioOf]

/-- Claim C4, amended: a path is classified as a dot exactly when its
bounding-box width and height are both below 30 units and the aspect
ratio `w/h` (0 when `h = 0`) lies in the OPEN interval (0.5, 2.0); a
bounding box of width 20 and height 22 is a dot, one of width 40 and
height 10 is not; a dot records `(cx, cy, (w+h)/4)`. -/
theorem C4_dot_classification :
    (∀ w h cx cy : ℚ, classifyBBox w h cx cy = PathKind.dot (cx, cy, (w + h) / 4) ↔
      (w < 30 ∧ h < 30 ∧ 0.5 < ratioOf w h ∧ ratioOf w h < 2.0)) ∧
    (∀ cx cy : ℚ, classifyBBox 20 22 cx cy = PathKind.dot (cx, cy, (20 + 22) / 4)) ∧
    (∀ cx cy : ℚ, classifyBBox 40 10 cx cy = PathKind.arrow) := by
  refine ⟨fun w h cx cy => ?_, fun cx cy => ?_, fun cx cy => ?_⟩
  · by_cases hc : w < 30 ∧ h < 30 ∧ 0.5 < ratioOf w h ∧ ratioOf w h < 2.0
    · simp [classifyBBox, hc]
    · simp [classifyBBox, hc]
  · norm_num [classifyBBox, ratioOf]
  · norm_num [classifyBBox, ratioOf]

/-- Claim C10: the dot classifier is total on zero-height bounding
boxes: the aspect ratio of a zero-height path is defined to be 0 (no
division by zero occurs), so every zero-height path is classified as
an arrow fragment, never as a dot. -/
theorem C10_zero_height_is_arrow :
    ∀ w cx cy : ℚ, ratioOf w 0 = 0 ∧ classifyBBox w 0 cx cy = PathKind.arrow := by
  intro w cx cy
  have h0 : ratioOf w 0 = 0 := by simp [ratioOf]
  refine ⟨h0, ?_⟩
  norm_num [classifyBBox, h0]

/-! ### Claim theorems: tokenizer / parser -/

/-- Claim C7: parsing the token stream of `"M0,0 L10,0 L10,10 Z"`
(the tokenizer regex yields the command letters and numeric literals
in order) produces exactly one polygon, the closed 4-point polygon
`[(0,0),(10,0),(10,10),(0,0)]`: `Z` appends the subpath start point
and the in-progress polygon is flushed on normal termination. -/
theorem C7_square_path_parses_closed :
    parse_svg_paths_basic
      [.cmd 'M', .num 0, .num 0, .cmd 'L', .num 10, .num 0,
       .cmd 'L', .num 10, .num 10, .cmd 'Z'] =
      .ok [[(0, 0), (10, 0), (10, 10), (0, 0)]] := rfl

/-- Claim C5 is wrong about the code: on the token stream of
`"M0,0 H10 L5,5"`, which contains the unsupported command letter `H`,
the parser raises no error at all.  It silently skips the `H` (and
then reads the numeric token `10` in command position and skips it
too) and returns a successfully parsed polygon, i.e. it silently
misparses instead of failing fast. -/
theorem C5_unsupported_command_is_silently_skipped :
    parse_svg_paths_basic
      [.cmd 'M', .num 0, .num 0, .cmd 'H', .num 10, .cmd 'L', .num 5, .num 5] =
      .ok [[(0, 0), (5, 5)]] := rfl

/-! ### Claim theorems: symmetry reconstructor -/

/-- Claim C8: whenever the collected top arm is empty,
`symmetrize_arrow` returns its input polygon unchanged (the fail-safe
branch; the Python code also prints a warning in the fallback branch,
a side effect with no bearing on the returned value). -/
theorem C8_empty_top_arm_returns_input (points : List Pt) (h : topArm points = []) :
    symmetrize_arrow points = points := by
  by_cases hu : uniquePoints points = []
  · simp [symmetrize_arrow, hu]
  · simp [symmetrize_arrow, hu, h]

/-- Witness for C8 at a concrete degenerate input: a single point has
no identifiable top arm, and `symmetrize_arrow` returns it unchanged. -/
theorem C8_empty_top_arm_returns_input_witness :
    topArm [((5 : ℚ), 5)] = [] ∧ symmetrize_arrow [((5 : ℚ), 5)] = [((5 : ℚ), 5)] := by
  have h : topArm [((5 : ℚ), 5)] = [] := by
    norm_num [topArm, uniquePoints, uniqAux, tipIdx, qnth, rotatedAt, List.range_succ,
      sortDescX, insertDescX]
  exact ⟨h, C8_empty_top_arm_returns_input _ h⟩

lemma qnth_eq_of_getElem? {l : List Pt} {i : ℕ} {p : Pt} (h : l[i]? = some p) : qnth l i = p := by
  simp [qnth, List.getD_eq_getElem?_getD, h]

/-- Claim C6: when the collected top arm is non-empty, the output of
`symmetrize_arrow` is exactly tip, then the top-arm points with the
last one (the notch) forced onto the horizontal axis through the tip,
then the reflections `y = 2*axis_y - y` of every top-arm point except
the notch in reverse order, then the tip again; every constructed
bottom point mirrors its top partner exactly and the output is a
closed loop starting and ending at the tip. -/
theorem C6_symmetrize_structure (points : List Pt) (h : topArm points ≠ []) :
    symmetrize_arrow points =
      tipOf points :: (notchedTop points ++ bottomArm points ++ [tipOf points]) ∧
    (notchedTop points).getLast? = some (((topArm points).getLastD (0, 0)).1, (tipOf points).2) ∧
    bottomArm points =
      ((notchedTop points).dropLast.reverse).map (fun p => (p.1, 2 * (tipOf points).2 - p.2)) ∧
    (symmetrize_arrow points).head? = some (tipOf points) ∧
    (symmetrize_arrow points).getLast? = some (tipOf points) ∧
    ∀ i, i < (bottomArm points).length →
      qnth (bottomArm points) i =
        ((qnth (notchedTop points) ((notchedTop points).length - 2 - i)).1,
         2 * (tipOf points).2 - (qnth (notchedTop points) ((notchedTop points).length - 2 - i)).2) := by
  have hu : uniquePoints points ≠ [] := by
    intro hnil
    exact h (by rw [uniquePoints_eq_nil hnil]; exact topArm_nil)
  have heq : symmetrize_arrow points =
      tipOf points :: (notchedTop points ++ bottomArm points ++ [tipOf points]) := by
    simp [symmetrize_arrow, hu, h]
  refine ⟨heq, List.getLast?_concat _, rfl, by simp [heq], ?_, ?_⟩
  · rw [heq]
    have hsplit : tipOf points :: (notchedTop points ++ bottomArm points ++ [tipOf points]) =
        (tipOf points :: (notchedTop points ++ bottomArm points)) ++ [tipOf points] := by
      simp
    rw [hsplit, List.getLast?_concat]
  · intro i hi
    have hlen : (bottomArm points).length = (notchedTop points).length - 1 := by
      simp [bottomArm]
    have hT1 : 1 ≤ (notchedTop points).length := by
      have : notchedTop points ≠ [] := by simp [notchedTop]
      exact List.length_pos.mpr this
    have hi' : i < (notchedTop points).length - 1 := hlen ▸ hi
    have hidx : (notchedTop points).length - 2 - i < (notchedTop points).length - 1 := by omega
    have hidx' : (notchedTop points).length - 2 - i < (notchedTop points).length := by omega
    have hrevlen : i < (notchedTop points).dropLast.reverse.length := by
      simp [List.length_dropLast]; omega
    have harith : (notchedTop points).dropLast.length - 1 - i
        = (notchedTop points).length - 2 - i := by
      simp [List.length_dropLast]; omega
    obtain ⟨q, hTq⟩ : ∃ q, (notchedTop points)[(notchedTop points).length - 2 - i]? = some q :=
      ⟨_, List.getElem?_eq_getElem hidx'⟩
    have hbq : (bottomArm points)[i]? = some (mirrorY (tipOf points).2 q) := by
      rw [show bottomArm points
            = ((notchedTop points).dropLast.reverse).map (mirrorY (tipOf points).2) from rfl]
      rw [List.getElem?_map, List.getElem?_reverse (by simpa [List.length_dropLast] using hrevlen),
        harith, List.getElem?_dropLast, if_pos hidx, hTq]
      rfl
    rw [qnth_eq_of_getElem? hbq, qnth_eq_of_getElem? hTq]
    rfl

/-- Witness for C6 at a concrete chevron, checking the hypothesis is
satisfiable and instantiating the structural equation there. -/
theorem C6_symmetrize_structure_witness :
    topArm [((100 : ℚ), 50), (80, 30), (60, 50), (80, 70)] ≠ [] ∧
    symmetrize_arrow [((100 : ℚ), 50), (80, 30), (60, 50), (80, 70)] =
      tipOf [((100 : ℚ), 50), (80, 30), (60, 50), (80, 70)] ::
        (notchedTop [((100 : ℚ), 50), (80, 30), (60, 50), (80, 70)] ++
          bottomArm [((100 : ℚ), 50), (80, 30), (60, 50), (80, 70)] ++
          [tipOf [((100 : ℚ), 50), (80, 30), (60, 50), (80, 70)]]) := by
  have h : topArm [((100 : ℚ), 50), (80, 30), (60, 50), (80, 70)] ≠ [] := by
    have : topArm [((100 : ℚ), 50), (80, 30), (60, 50), (80, 70)] = [(80, 30), (60, 50)] := by
      norm_num [topArm, uniquePoints, uniqAux, tipIdx, qnth, rotatedAt, List.range_succ]
    simp [this]
  exact ⟨h, (C6_symmetrize_structure _ h).1⟩

lemma hypot_nonneg (dx dy : ℝ) : 0 ≤ hypot dx dy := Real.sqrt_nonneg _

lemma perpendicular_distance_nonneg (p s e : Point) : 0 ≤ perpendicular_distance p s e := by
  unfold perpendicular_distance
  split
  · exact hypot_nonneg _ _
  · exact div_nonneg (abs_nonneg _) (hypot_nonneg _ _)

lemma perpendicular_distance_start (s e : Point) : perpendicular_distance s s e = 0 := by
  unfold perpendicular_distance
  split
  · simp [hypot]
  · rw [show (e.2 - s.2) * s.1 - (e.1 - s.1) * s.2 + e.1 * s.2 - e.2 * s.1 = 0 by ring]
    simp

lemma perpendicular_distance_finish (s e : Point) : perpendicular_distance e s e = 0 := by
  unfold perpendicular_distance
  split
  · rename_i hse
    rw [← hse]
    simp [hypot]
  · rw [show (e.2 - s.2) * e.1 - (e.1 - s.1) * e.2 + e.1 * s.2 - e.2 * s.1 = 0 by ring]
    simp

lemma rdpLoop_succ (d : ℕ → ℝ) (n : ℕ) :
    rdpLoop d (n + 1) =
      if d (n + 1) > (rdpLoop d n).2 then (n + 1, d (n + 1)) else rdpLoop d n := rfl

lemma rdpLoop_snd_nonneg (d : ℕ → ℝ) (n : ℕ) : 0 ≤ (rdpLoop d n).2 := by
  induction n with
  | zero => simp [rdpLoop]
  | succ n ih =>
    rw [rdpLoop_succ]
    by_cases hc : d (n + 1) > (rdpLoop d n).2
    · rw [if_pos hc]; exact le_of_lt (lt_of_le_of_lt ih hc)
    · rw [if_neg hc]; exact ih

lemma rdpLoop_fst_le (d : ℕ → ℝ) (n : ℕ) : (rdpLoop d n).1 ≤ n := by
  induction n with
  | zero => simp [rdpLoop]
  | succ n ih =>
    rw [rdpLoop_succ]
    by_cases hc : d (n + 1) > (rdpLoop d n).2
    · rw [if_pos hc]
    · rw [if_neg hc]; exact le_trans ih (Nat.le_succ n)

lemma rdpLoop_snd_eq_zero_of_fst (d : ℕ → ℝ) (n : ℕ) (h : (rdpLoop d n).1 = 0) :
    (rdpLoop d n).2 = 0 := by
  induction n with
  | zero => simp [rdpLoop]
  | succ n ih =>
    rw [rdpLoop_succ] at h ⊢
    by_cases hc : d (n + 1) > (rdpLoop d n).2
    · rw [if_pos hc] at h; exact absurd h (Nat.succ_ne_zero n)
    · rw [if_neg hc] at h ⊢; exact ih h

lemma rdpLoop_fst_pos (d : ℕ → ℝ) (n : ℕ) (h : 0 < (rdpLoop d n).2) : 1 ≤ (rdpLoop d n).1 := by
  by_contra hlt
  push_neg at hlt
  rw [rdpLoop_snd_eq_zero_of_fst d n (Nat.lt_one_iff.mp hlt)] at h
  exact lt_irrefl 0 h

lemma rdpLoop_snd_mono_succ (d : ℕ → ℝ) (n : ℕ) : (rdpLoop d n).2 ≤ (rdpLoop d (n + 1)).2 := by
  rw [rdpLoop_succ]
  by_cases hc : d (n + 1) > (rdpLoop d n).2
  · rw [if_pos hc]; exact le_of_lt hc
  · rw [if_neg hc]

lemma rdpLoop_le (d : ℕ → ℝ) (n : ℕ) : ∀ i, 1 ≤ i → i ≤ n → d i ≤ (rdpLoop d n).2 := by
  induction n with
  | zero => intro i h1 h0; omega
  | succ n ih =>
    intro i h1 hin
    rcases Nat.lt_or_ge i (n + 1) with hlt | hge
    · exact le_trans (ih i h1 (Nat.lt_succ_iff.mp hlt)) (rdpLoop_snd_mono_succ d n)
    · have hieq : i = n + 1 := le_antisymm hin hge
      rw [hieq, rdpLoop_succ]
      by_cases hc : d (n + 1) > (rdpLoop d n).2
      · rw [if_pos hc]
      · rw [if_neg hc]; exact le_of_not_lt hc

lemma rdpLoop_d_fst (d : ℕ → ℝ) (n : ℕ) (h : 1 ≤ (rdpLoop d n).1) :
    d (rdpLoop d n).1 = (rdpLoop d n).2 := by
  induction n with
  | zero => simp [rdpLoop] at h
  | succ n ih =>
    rw [rdpLoop_succ] at h ⊢
    by_cases hc : d (n + 1) > (rdpLoop d n).2
    · rw [if_pos hc]
    · rw [if_neg hc] at h ⊢; exact ih h

lemma rdpLoop_lt_of_lt_fst (d : ℕ → ℝ) (n : ℕ) :
    ∀ i, 1 ≤ i → i < (rdpLoop d n).1 → d i < (rdpLoop d n).2 := by
  induction n with
  | zero => intro i h1 h0; simp [rdpLoop] at h0
  | succ n ih =>
    intro i h1 hilt
    rw [rdpLoop_succ] at hilt ⊢
    by_cases hc : d (n + 1) > (rdpLoop d n).2
    · rw [if_pos hc] at hilt ⊢
      have hin : i ≤ n := Nat.lt_succ_iff.mp hilt
      exact lt_of_le_of_lt (rdpLoop_le d n i h1 hin) hc
    · rw [if_neg hc] at hilt ⊢; exact ih i h1 hilt

lemma rdpLoop_eq_of (d : ℕ → ℝ) (n k : ℕ) (m : ℝ) (hk1 : 1 ≤ k) (hkn : k ≤ n)
    (hdk : d k = m) (hle : ∀ i, 1 ≤ i → i ≤ n → d i ≤ m)
    (hlt : ∀ i, 1 ≤ i → i < k → d i < m) (hm : 0 < m) :
    rdpLoop d n = (k, m) := by
  induction n with
  | zero => omega
  | succ n ih =>
    rcases Nat.lt_or_ge n k with hnk | hkn'
    · -- k = n + 1: the scan up to n stays strictly below m, step n+1 takes over
      have hk : k = n + 1 := by omega
      subst hk
      have hprev : (rdpLoop d n).2 < m := by
        rcases Nat.eq_zero_or_pos (rdpLoop d n).1 with h0 | hpos
        · rw [rdpLoop_snd_eq_zero_of_fst d n h0]; exact hm
        · have hfle : (rdpLoop d n).1 ≤ n := rdpLoop_fst_le d n
          rw [← rdpLoop_d_fst d n hpos]
          exact hlt _ hpos (by omega)
      rw [rdpLoop_succ, hdk, if_pos (by exact hprev)]
    · -- k ≤ n: the scan already holds (k, m) and step n+1 does not beat it
      have hrec : rdpLoop d n = (k, m) :=
        ih hkn' (fun i h1 hin => hle i h1 (by omega))
      rw [rdpLoop_succ, hrec]
      have hnot : ¬ d (n + 1) > (k, m).2 := not_lt.mpr (hle (n + 1) (by omega) (by omega))
      rw [if_neg hnot]

lemma rdp_zero (points : List Point) (ε : ℝ) : ramer_douglas_peucker 0 points ε = none := rfl

lemma rdp_nil (fuel : ℕ) (ε : ℝ) : ramer_douglas_peucker (fuel + 1) [] ε = none := rfl

lemma rdp_cons (fuel : ℕ) (p0 : Point) (ps : List Point) (ε : ℝ) :
    ramer_douglas_peucker (fuel + 1) (p0 :: ps) ε =
      (if (rdpLoop (rdpD (p0 :: ps)) ((p0 :: ps).length - 1 - 1)).2 > ε then
        match ramer_douglas_peucker fuel
                ((p0 :: ps).take ((rdpLoop (rdpD (p0 :: ps)) ((p0 :: ps).length - 1 - 1)).1 + 1)) ε,
              ramer_douglas_peucker fuel
                ((p0 :: ps).drop (rdpLoop (rdpD (p0 :: ps)) ((p0 :: ps).length - 1 - 1)).1) ε with
        | some r1, some r2 => some (r1.dropLast ++ r2)
        | _, _ => none
       else some [nthP (p0 :: ps) 0, nthP (p0 :: ps) ((p0 :: ps).length - 1)]) := rfl

lemma rdp_some_eps_nonneg : ∀ (fuel : ℕ) (points : List Point) (ε : ℝ) (out : List Point),
    ramer_douglas_peucker fuel points ε = some out → 0 ≤ ε := by
  intro fuel
  induction fuel with
  | zero => intro points ε out h; rw [rdp_zero] at h; exact absurd h (by simp)
  | succ fuel ih =>
    intro points ε out h
    cases points with
    | nil => rw [rdp_nil] at h; exact absurd h (by simp)
    | cons p0 ps =>
      rw [rdp_cons] at h
      by_cases hc : (rdpLoop (rdpD (p0 :: ps)) ((p0 :: ps).length - 1 - 1)).2 > ε
      · rw [if_pos hc] at h
        rcases h1 : ramer_douglas_peucker fuel
            ((p0 :: ps).take ((rdpLoop (rdpD (p0 :: ps)) ((p0 :: ps).length - 1 - 1)).1 + 1)) ε
          with _ | r1
        · rw [h1] at h; exact absurd h (by simp)
        rcases h2 : ramer_douglas_peucker fuel
            ((p0 :: ps).drop (rdpLoop (rdpD (p0 :: ps)) ((p0 :: ps).length - 1 - 1)).1) ε
          with _ | r2
        · rw [h1, h2] at h; exact absurd h (by simp)
        exact ih _ _ _ h1
      · rw [if_neg hc] at h
        exact le_trans (rdpLoop_snd_nonneg _ _) (not_lt.mp hc)

lemma nthP_eq_getElem (l : List Point) (i : ℕ) (h : i < l.length) : nthP l i = l[i] := by
  simp [nthP, List.getD_eq_getElem?_getD, List.getElem?_eq_getElem h]

lemma nthP_eq_of_getElem? {l : List Point} {i : ℕ} {p : Point} (h : l[i]? = some p) :
    nthP l i = p := by
  simp [nthP, List.getD_eq_getElem?_getD, h]

lemma head?_eq_nthP (l : List Point) (h : l ≠ []) : l.head? = some (nthP l 0) := by
  have h0 : 0 < l.length := List.length_pos.mpr h
  rw [List.head?_eq_getElem?, List.getElem?_eq_getElem h0, nthP_eq_getElem l 0 h0]

lemma getLast?_eq_nthP (l : List Point) (h : l ≠ []) :
    l.getLast? = some (nthP l (l.length - 1)) := by
  have h0 : l.length - 1 < l.length := by
    have := List.length_pos.mpr h; omega
  rw [List.getLast?_eq_getElem?, List.getElem?_eq_getElem h0, nthP_eq_getElem l _ h0]

lemma head_last_sublist (l : List Point) (h : 2 ≤ l.length) :
    [nthP l 0, nthP l (l.length - 1)].Sublist l := by
  cases l with
  | nil => simp at h
  | cons a ls =>
    have hls : ls ≠ [] := by
      intro hnil; rw [hnil] at h; simp at h
    have hpos : 0 < ls.length := List.length_pos.mpr hls
    have h0 : nthP (a :: ls) 0 = a := by simp [nthP]
    have hlen : (a :: ls).length - 1 = ls.length - 1 + 1 := by
      simp only [List.length_cons]
      omega
    have hlt : ls.length - 1 < ls.length := by
      have := List.length_pos.mpr hls; omega
    have h1 : nthP (a :: ls) ((a :: ls).length - 1) = ls[ls.length - 1] := by
      rw [hlen, nthP_eq_getElem _ _ (by simpa using hlt)]
      simp
    rw [h0, h1]
    exact List.Sublist.cons₂ a (List.singleton_sublist.mpr (ls.getElem_mem hlt))

lemma sublist_dropLast {α : Type _} {l m : List α} (h : l.Sublist m) :
    l.dropLast.Sublist m.dropLast := by
  induction h with
  | slnil => simp
  | @cons l₁ l₂ a h ih =>
    cases l₂ with
    | nil =>
      have hl : l₁ = [] := List.sublist_nil.mp h
      simp [hl]
    | cons b m₂ =>
      rw [List.dropLast_cons₂]
      exact ih.trans (List.sublist_cons_self a _)
  | @cons₂ l₁ l₂ a h ih =>
    cases l₁ with
    | nil => simp
    | cons b l₃ =>
      cases l₂ with
      | nil => exact absurd (List.sublist_nil.mp h) (by simp)
      | cons c m₂ =>
        rw [List.dropLast_cons₂, List.dropLast_cons₂]
        exact List.Sublist.cons₂ a ih

lemma dropLast_take (l : List Point) (n : ℕ) (h : n + 1 ≤ l.length) :
    (l.take (n + 1)).dropLast = l.take n := by
  rw [List.dropLast_eq_take, List.take_take]
  congr 1
  rw [List.length_take]
  omega

lemma getLast?_take (l : List Point) (n : ℕ) (h1 : 0 < n) (h2 : n ≤ l.length) :
    (l.take n).getLast? = l[n - 1]? := by
  rw [List.getLast?_eq_getElem?, List.length_take, List.getElem?_take]
  rw [if_pos (by omega)]
  congr 1
  omega

lemma head?_dropLast (l : List Point) (h : 2 ≤ l.length) : l.dropLast.head? = l.head? := by
  rw [List.head?_eq_getElem?, List.head?_eq_getElem?, List.getElem?_dropLast]
  rw [if_pos (by omega)]

lemma rdp_structure : ∀ (fuel : ℕ) (points : List Point) (ε : ℝ) (out : List Point),
    2 ≤ points.length → ramer_douglas_peucker fuel points ε = some out →
    out.Sublist points ∧ 2 ≤ out.length ∧ out.head? = points.head? ∧
    out.getLast? = points.getLast? := by
  intro fuel
  induction fuel with
  | zero => intro points ε out h2 h; rw [rdp_zero] at h; exact absurd h (by simp)
  | succ fuel ih =>
    intro points ε out h2 h
    have hε : 0 ≤ ε := rdp_some_eps_nonneg _ _ _ _ h
    cases points with
    | nil => simp at h2
    | cons p0 ps =>
      rw [rdp_cons] at h
      set r := rdpLoop (rdpD (p0 :: ps)) ((p0 :: ps).length - 1 - 1) with hr
      by_cases hc : r.2 > ε
      · rw [if_pos hc] at h
        have hfst1 : 1 ≤ r.1 := rdpLoop_fst_pos _ _ (lt_of_le_of_lt hε hc)
        have hfstle : r.1 ≤ (p0 :: ps).length - 1 - 1 := rdpLoop_fst_le _ _
        have hlen : (p0 :: ps).length = ps.length + 1 := by simp
        rcases h1 : ramer_douglas_peucker fuel ((p0 :: ps).take (r.1 + 1)) ε with _ | r1
        · rw [h1] at h; exact absurd h (by simp)
        rcases hd1 : ramer_douglas_peucker fuel ((p0 :: ps).drop r.1) ε with _ | r2
        · rw [h1, hd1] at h; exact absurd h (by simp)
        rw [h1, hd1] at h
        simp only [Option.some.injEq] at h
        subst h
        have hlt : r.1 + 1 < (p0 :: ps).length := by omega
        have htlen : ((p0 :: ps).take (r.1 + 1)).length = r.1 + 1 := by
          rw [List.length_take]; omega
        have hdlen : ((p0 :: ps).drop r.1).length = (p0 :: ps).length - r.1 :=
          List.length_drop r.1 _
        have ht2 : 2 ≤ ((p0 :: ps).take (r.1 + 1)).length := by omega
        have hd2 : 2 ≤ ((p0 :: ps).drop r.1).length := by omega
        obtain ⟨hs1, hl1, hh1, hg1⟩ := ih _ _ _ ht2 h1
        obtain ⟨hs2, hl2, hh2, hg2⟩ := ih _ _ _ hd2 hd1
        have hdl1 : r1.dropLast.Sublist ((p0 :: ps).take r.1) := by
          have := sublist_dropLast hs1
          rwa [dropLast_take _ _ (le_of_lt hlt)] at this
        refine ⟨?_, ?_, ?_, ?_⟩
        · have happ : (r1.dropLast ++ r2).Sublist
              ((p0 :: ps).take r.1 ++ (p0 :: ps).drop r.1) :=
            List.Sublist.append hdl1 hs2
          rwa [List.take_append_drop] at happ
        · rw [List.length_append, List.length_dropLast]
          omega
        · have hne : r1.dropLast ≠ [] := by
            have : 0 < r1.dropLast.length := by rw [List.length_dropLast]; omega
            exact List.length_pos.mp this
          rw [List.head?_append_of_ne_nil _ hne, head?_dropLast _ hl1, hh1,
            List.head?_take, if_neg (by omega)]
        · rw [List.getLast?_append, hg2, List.getLast?_drop, if_neg (by omega)]
          have : ((p0 :: ps) : List Point).getLast? = some (nthP (p0 :: ps) ((p0 :: ps).length - 1)) :=
            getLast?_eq_nthP _ (by simp)
          rw [this]
          rfl
      · rw [if_neg hc] at h
        simp only [Option.some.injEq] at h
        subst h
        refine ⟨head_last_sublist _ h2, by simp, ?_, ?_⟩
        · rw [head?_eq_nthP (p0 :: ps) (by simp)]
          rfl
        · rw [getLast?_eq_nthP (p0 :: ps) (by simp)]
          rfl

lemma rdp_total : ∀ (fuel : ℕ) (points : List Point) (ε : ℝ),
    1 ≤ points.length → points.length ≤ fuel → 0 ≤ ε →
    ∃ out, ramer_douglas_peucker fuel points ε = some out := by
  intro fuel
  induction fuel with
  | zero => intro points ε h1 hf _; omega
  | succ fuel ih =>
    intro points ε h1 hf hε
    cases points with
    | nil => simp at h1
    | cons p0 ps =>
      rw [rdp_cons]
      set r := rdpLoop (rdpD (p0 :: ps)) ((p0 :: ps).length - 1 - 1) with hr
      by_cases hc : r.2 > ε
      · have hfst1 : 1 ≤ r.1 := rdpLoop_fst_pos _ _ (lt_of_le_of_lt hε hc)
        have hfstle : r.1 ≤ (p0 :: ps).length - 1 - 1 := rdpLoop_fst_le _ _
        have hlen : (p0 :: ps).length = ps.length + 1 := by simp
        have ht1 : 1 ≤ ((p0 :: ps).take (r.1 + 1)).length := by
          rw [List.length_take]; omega
        have htf : ((p0 :: ps).take (r.1 + 1)).length ≤ fuel := by
          rw [List.length_take]; omega
        have hd1 : 1 ≤ ((p0 :: ps).drop r.1).length := by
          rw [List.length_drop]; omega
        have hdf : ((p0 :: ps).drop r.1).length ≤ fuel := by
          rw [List.length_drop]; omega
        obtain ⟨o1, ho1⟩ := ih _ ε ht1 htf hε
        obtain ⟨o2, ho2⟩ := ih _ ε hd1 hdf hε
        rw [if_pos hc, ho1, ho2]
        exact ⟨_, rfl⟩
      · rw [if_neg hc]
        exact ⟨_, rfl⟩

lemma nthP_append_junction {r1 r2 : List Point} {q : Point}
    (hg : r1.getLast? = some q) (hh : r2.head? = some q) {j : ℕ} (hj : j ≤ r1.length - 1) :
    nthP (r1.dropLast ++ r2) j = nthP r1 j := by
  have hne : r1 ≠ [] := by
    intro h; rw [h] at hg; simp at hg
  have hpos : 0 < r1.length := List.length_pos.mpr hne
  rcases Nat.lt_or_ge j (r1.length - 1) with hlt | hge
  · have hq : (r1.dropLast ++ r2)[j]? = r1[j]? := by
      rw [List.getElem?_append_left (by rw [List.length_dropLast]; exact hlt),
        List.getElem?_dropLast, if_pos hlt]
    simp [nthP, List.getD_eq_getElem?_getD, hq]
  · have hje : j = r1.length - 1 := le_antisymm hj hge
    have hq1 : (r1.dropLast ++ r2)[j]? = some q := by
      rw [hje, List.getElem?_append_right (by rw [List.length_dropLast])]
      rw [List.length_dropLast, Nat.sub_self]
      rw [← List.head?_eq_getElem?]
      exact hh
    have hq2 : r1[j]? = some q := by
      rw [hje, ← List.getLast?_eq_getElem?]
      exact hg
    rw [nthP_eq_of_getElem? hq1, nthP_eq_of_getElem? hq2]

lemma nthP_append_right (r1 r2 : List Point) (j : ℕ) :
    nthP (r1.dropLast ++ r2) (r1.length - 1 + j) = nthP r2 j := by
  have hq : (r1.dropLast ++ r2)[r1.length - 1 + j]? = r2[j]? := by
    rw [List.getElem?_append_right (by rw [List.length_dropLast]; omega)]
    rw [List.length_dropLast]
    congr 1
    omega
  simp [nthP, List.getD_eq_getElem?_getD, hq]

lemma mem_take_or_drop (l : List Point) (n : ℕ) (p : Point) (h : p ∈ l) :
    p ∈ l.take (n + 1) ∨ p ∈ l.drop n := by
  rw [← List.take_append_drop (n + 1) l] at h
  rcases List.mem_append.mp h with h | h
  · exact Or.inl h
  · right
    have : l.drop (n + 1) = (l.drop n).drop 1 := by
      rw [List.drop_drop]
    rw [this] at h
    exact List.drop_subset _ _ h

lemma rdp_within : ∀ (fuel : ℕ) (points : List Point) (ε : ℝ) (out : List Point),
    2 ≤ points.length → ramer_douglas_peucker fuel points ε = some out →
    ∀ p ∈ points, ∃ i, i + 1 < out.length ∧
      perpendicular_distance p (nthP out i) (nthP out (i + 1)) ≤ ε := by
  intro fuel
  induction fuel with
  | zero => intro points ε out h2 h; rw [rdp_zero] at h; exact absurd h (by simp)
  | succ fuel ih =>
    intro points ε out h2 h p hp
    have hε : 0 ≤ ε := rdp_some_eps_nonneg _ _ _ _ h
    cases points with
    | nil => simp at h2
    | cons p0 ps =>
      rw [rdp_cons] at h
      set r := rdpLoop (rdpD (p0 :: ps)) ((p0 :: ps).length - 1 - 1) with hr
      by_cases hc : r.2 > ε
      · rw [if_pos hc] at h
        have hfst1 : 1 ≤ r.1 := rdpLoop_fst_pos _ _ (lt_of_le_of_lt hε hc)
        have hfstle : r.1 ≤ (p0 :: ps).length - 1 - 1 := rdpLoop_fst_le _ _
        have hlen : (p0 :: ps).length = ps.length + 1 := by simp
        rcases h1 : ramer_douglas_peucker fuel ((p0 :: ps).take (r.1 + 1)) ε with _ | r1
        · rw [h1] at h; exact absurd h (by simp)
        rcases hd1 : ramer_douglas_peucker fuel ((p0 :: ps).drop r.1) ε with _ | r2
        · rw [h1, hd1] at h; exact absurd h (by simp)
        rw [h1, hd1] at h
        simp only [Option.some.injEq] at h
        subst h
        have hlt : r.1 + 1 < (p0 :: ps).length := by omega
        have htlen : ((p0 :: ps).take (r.1 + 1)).length = r.1 + 1 := by
          rw [List.length_take]; omega
        have hdlen : ((p0 :: ps).drop r.1).length = (p0 :: ps).length - r.1 :=
          List.length_drop r.1 _
        have ht2 : 2 ≤ ((p0 :: ps).take (r.1 + 1)).length := by omega
        have hd2 : 2 ≤ ((p0 :: ps).drop r.1).length := by omega
        obtain ⟨hs1, hl1, hh1, hg1⟩ := rdp_structure _ _ _ _ ht2 h1
        obtain ⟨hs2, hl2, hh2, hg2⟩ := rdp_structure _ _ _ _ hd2 hd1
        have hq1 : r1.getLast? = some (nthP (p0 :: ps) r.1) := by
          rw [hg1, getLast?_take _ _ (by omega) (by omega), Nat.add_sub_cancel,
            List.getElem?_eq_getElem (by omega), nthP_eq_getElem _ _ (by omega)]
        have hq2 : r2.head? = some (nthP (p0 :: ps) r.1) := by
          rw [hh2, List.head?_drop, List.getElem?_eq_getElem (by omega),
            nthP_eq_getElem _ _ (by omega)]
        rcases mem_take_or_drop (p0 :: ps) r.1 p hp with hmem | hmem
        · obtain ⟨i, hi, hpd⟩ := ih _ _ _ ht2 h1 p hmem
          refine ⟨i, ?_, ?_⟩
          · rw [List.length_append, List.length_dropLast]; omega
          · rw [nthP_append_junction hq1 hq2 (by omega),
              nthP_append_junction hq1 hq2 (by omega)]
            exact hpd
        · obtain ⟨i, hi, hpd⟩ := ih _ _ _ hd2 hd1 p hmem
          refine ⟨r1.length - 1 + i, ?_, ?_⟩
          · rw [List.length_append, List.length_dropLast]; omega
          · have hplus : r1.length - 1 + i + 1 = r1.length - 1 + (i + 1) := by omega
            rw [hplus, nthP_append_right, nthP_append_right]
            exact hpd
      · rw [if_neg hc] at h
        simp only [Option.some.injEq] at h
        subst h
        refine ⟨0, by simp, ?_⟩
        have hn0 : nthP [nthP (p0 :: ps) 0, nthP (p0 :: ps) ((p0 :: ps).length - 1)] 0
            = nthP (p0 :: ps) 0 := by simp [nthP]
        have hn1 : nthP [nthP (p0 :: ps) 0, nthP (p0 :: ps) ((p0 :: ps).length - 1)] 1
            = nthP (p0 :: ps) ((p0 :: ps).length - 1) := by simp [nthP]
        rw [hn0, hn1]
        obtain ⟨j, hj, hje⟩ := List.mem_iff_getElem.mp hp
        have hpj : p = nthP (p0 :: ps) j := by rw [← hje, nthP_eq_getElem _ _ hj]
        rcases Nat.eq_zero_or_pos j with hj0 | hjpos
        · rw [hpj, hj0, perpendicular_distance_start]
          exact hε
        rcases Nat.lt_or_ge j ((p0 :: ps).length - 1) with hjlt | hjge
        · have hd : rdpD (p0 :: ps) j ≤ r.2 :=
            rdpLoop_le (rdpD (p0 :: ps)) ((p0 :: ps).length - 1 - 1) j hjpos (by omega)
          have : perpendicular_distance p (nthP (p0 :: ps) 0)
              (nthP (p0 :: ps) ((p0 :: ps).length - 1)) = rdpD (p0 :: ps) j := by
            rw [hpj]; rfl
          rw [this]
          exact le_trans hd (not_lt.mp hc)
        · have hje' : j = (p0 :: ps).length - 1 := by omega
          rw [hpj, hje', perpendicular_distance_finish]
          exact hε

lemma rdp_ne_nil_eq (fuel : ℕ) (points : List Point) (hne : points ≠ []) (ε : ℝ) :
    ramer_douglas_peucker (fuel + 1) points ε =
      (if (rdpLoop (rdpD points) (points.length - 1 - 1)).2 > ε then
        match ramer_douglas_peucker fuel
                (points.take ((rdpLoop (rdpD points) (points.length - 1 - 1)).1 + 1)) ε,
              ramer_douglas_peucker fuel
                (points.drop (rdpLoop (rdpD points) (points.length - 1 - 1)).1) ε with
        | some r1, some r2 => some (r1.dropLast ++ r2)
        | _, _ => none
       else some [nthP points 0, nthP points (points.length - 1)]) := by
  obtain ⟨p0, ps, rfl⟩ := List.exists_cons_of_ne_nil hne
  exact rdp_cons fuel p0 ps ε

lemma rdp_idem : ∀ (fuel : ℕ) (points : List Point) (ε : ℝ) (out : List Point),
    2 ≤ points.length → ramer_douglas_peucker fuel points ε = some out →
    ∀ fuel', out.length ≤ fuel' → ramer_douglas_peucker fuel' out ε = some out := by
  intro fuel
  induction fuel with
  | zero => intro points ε out h2 h; rw [rdp_zero] at h; exact absurd h (by simp)
  | succ fuel ih =>
    intro points ε out h2 h fuel' hf'
    have horig := h
    have hε : 0 ≤ ε := rdp_some_eps_nonneg _ _ _ _ h
    cases points with
    | nil => simp at h2
    | cons p0 ps =>
      obtain ⟨hso, hol2, hoh, hog⟩ := rdp_structure _ _ _ _ h2 horig
      have hone : out ≠ [] := by
        intro hnil; rw [hnil] at hol2; simp at hol2
      have na0 : nthP out 0 = nthP (p0 :: ps) 0 := by
        have ho := head?_eq_nthP out hone
        have hp := head?_eq_nthP (p0 :: ps) (by simp)
        rw [hoh, hp] at ho
        exact (Option.some.inj ho).symm
      have nae : nthP out (out.length - 1) = nthP (p0 :: ps) ((p0 :: ps).length - 1) := by
        have ho := getLast?_eq_nthP out hone
        have hp := getLast?_eq_nthP (p0 :: ps) (by simp)
        rw [hog, hp] at ho
        exact (Option.some.inj ho).symm
      rw [rdp_cons] at h
      set r := rdpLoop (rdpD (p0 :: ps)) ((p0 :: ps).length - 1 - 1) with hr
      by_cases hc : r.2 > ε
      · -- recursive case
        rw [if_pos hc] at h
        have hfst1 : 1 ≤ r.1 := rdpLoop_fst_pos _ _ (lt_of_le_of_lt hε hc)
        have hfstle : r.1 ≤ (p0 :: ps).length - 1 - 1 := rdpLoop_fst_le _ _
        have hlen : (p0 :: ps).length = ps.length + 1 := by simp
        rcases h1 : ramer_douglas_peucker fuel ((p0 :: ps).take (r.1 + 1)) ε with _ | r1
        · rw [h1] at h; exact absurd h (by simp)
        rcases hd1 : ramer_douglas_peucker fuel ((p0 :: ps).drop r.1) ε with _ | r2
        · rw [h1, hd1] at h; exact absurd h (by simp)
        rw [h1, hd1] at h
        simp only [Option.some.injEq] at h
        have hlt : r.1 + 1 < (p0 :: ps).length := by omega
        have htlen : ((p0 :: ps).take (r.1 + 1)).length = r.1 + 1 := by
          rw [List.length_take]; omega
        have hdlen : ((p0 :: ps).drop r.1).length = (p0 :: ps).length - r.1 :=
          List.length_drop r.1 _
        have ht2 : 2 ≤ ((p0 :: ps).take (r.1 + 1)).length := by omega
        have hd2 : 2 ≤ ((p0 :: ps).drop r.1).length := by omega
        obtain ⟨hs1, hl1, hh1, hg1⟩ := rdp_structure _ _ _ _ ht2 h1
        obtain ⟨hs2, hl2, hh2, hg2⟩ := rdp_structure _ _ _ _ hd2 hd1
        have hq1 : r1.getLast? = some (nthP (p0 :: ps) r.1) := by
          rw [hg1, getLast?_take _ _ (by omega) (by omega), Nat.add_sub_cancel,
            List.getElem?_eq_getElem (by omega), nthP_eq_getElem _ _ (by omega)]
        have hq2 : r2.head? = some (nthP (p0 :: ps) r.1) := by
          rw [hh2, List.head?_drop, List.getElem?_eq_getElem (by omega),
            nthP_eq_getElem _ _ (by omega)]
        have hdl1 : r1.dropLast.Sublist ((p0 :: ps).take r.1) := by
          have := sublist_dropLast hs1
          rwa [dropLast_take _ _ (le_of_lt hlt)] at this
        have holen : out.length = r1.length - 1 + r2.length := by
          rw [← h, List.length_append, List.length_dropLast]
        -- every element of the input is within max distance of the chord
        have hDall : ∀ j, j < (p0 :: ps).length → rdpD (p0 :: ps) j ≤ r.2 := by
          intro j hj
          rcases Nat.eq_zero_or_pos j with hj0 | hjpos
          · have : rdpD (p0 :: ps) j = 0 := by
              rw [hj0]; exact perpendicular_distance_start _ _
            rw [this]; exact rdpLoop_snd_nonneg _ _
          rcases Nat.lt_or_ge j ((p0 :: ps).length - 1) with hjlt | hjge
          · exact rdpLoop_le _ _ j hjpos (by omega)
          · have hje : j = (p0 :: ps).length - 1 := by omega
            have : rdpD (p0 :: ps) j = 0 := by
              rw [hje]; exact perpendicular_distance_finish _ _
            rw [this]; exact rdpLoop_snd_nonneg _ _
        -- the second scan over out returns (k, dmax) with k the image of the split
        set k := r1.length - 1 with hk
        have hloop : rdpLoop (rdpD out) (out.length - 1 - 1) = (k, r.2) := by
          apply rdpLoop_eq_of
          · omega
          · omega
          · -- rdpD out k = r.2
            have hnk : nthP out k = nthP (p0 :: ps) r.1 := by
              rw [← h, nthP_append_junction hq1 hq2 (by omega)]
              have : r1[r1.length - 1]? = some (nthP (p0 :: ps) r.1) := by
                rw [← List.getLast?_eq_getElem?]; exact hq1
              exact nthP_eq_of_getElem? this
            show perpendicular_distance (nthP out k) (nthP out 0)
              (nthP out (out.length - 1)) = r.2
            rw [hnk, na0, nae]
            exact rdpLoop_d_fst _ _ hfst1
          · -- all interior distances bounded by r.2
            intro i h1i hin
            show perpendicular_distance (nthP out i) (nthP out 0)
              (nthP out (out.length - 1)) ≤ r.2
            rw [na0, nae]
            have hiltl : i < out.length := by omega
            have hmem : nthP out i ∈ (p0 :: ps) := by
              rw [nthP_eq_getElem out i hiltl]
              exact hso.subset (out.getElem_mem hiltl)
            obtain ⟨j, hj, hje⟩ := List.mem_iff_getElem.mp hmem
            rw [← hje, ← nthP_eq_getElem _ _ hj]
            exact hDall j hj
          · -- distances strictly below r.2 before the split image
            intro i h1i hik
            show perpendicular_distance (nthP out i) (nthP out 0)
              (nthP out (out.length - 1)) < r.2
            rw [na0, nae]
            have hidl : i < r1.dropLast.length := by rw [List.length_dropLast]; omega
            have hmem : nthP out i ∈ (p0 :: ps).take r.1 := by
              have hq : out[i]? = r1.dropLast[i]? := by
                rw [← h, List.getElem?_append_left hidl]
              have : nthP out i = r1.dropLast[i] := by
                rw [nthP, List.getD_eq_getElem?_getD, hq, List.getElem?_eq_getElem hidl]
                rfl
              rw [this]
              exact hdl1.subset (r1.dropLast.getElem_mem hidl)
            obtain ⟨j, hj, hje⟩ := List.mem_take_iff_getElem.mp hmem
            have hjr : j < r.1 := lt_of_lt_of_le hj (le_trans (min_le_left _ _) (le_refl _))
            have hjl : j < (p0 :: ps).length := by omega
            rw [← hje, ← nthP_eq_getElem _ _ hjl]
            rcases Nat.eq_zero_or_pos j with hj0 | hjpos
            · have hD0 : perpendicular_distance (nthP (p0 :: ps) j) (nthP (p0 :: ps) 0)
                  (nthP (p0 :: ps) ((p0 :: ps).length - 1)) = 0 := by
                rw [hj0]; exact perpendicular_distance_start _ _
              rw [hD0]
              exact lt_of_le_of_lt hε hc
            · exact rdpLoop_lt_of_lt_fst (rdpD (p0 :: ps)) ((p0 :: ps).length - 1 - 1) j
                hjpos (by rw [← hr]; omega)
          · exact lt_of_le_of_lt hε hc
        -- unfold the second run
        obtain ⟨v, r2t, rfl⟩ : ∃ v r2t, r2 = v :: r2t := by
          cases r2 with
          | nil => simp at hq2
          | cons a t => exact ⟨a, t, rfl⟩
        have hv : v = nthP (p0 :: ps) r.1 := by
          simpa using hq2
        have hr1ne : r1 ≠ [] := by
          intro hnil; rw [hnil] at hl1; simp at hl1
        have htake : out.take (k + 1) = r1 := by
          rw [← h]
          have hk1 : k + 1 = r1.dropLast.length + 1 := by
            rw [List.length_dropLast]
          rw [hk1, List.take_append]
          have : (v :: r2t).take 1 = [v] := by simp
          rw [this, hv]
          have hgl : r1.getLast hr1ne = nthP (p0 :: ps) r.1 := by
            have := List.getLast?_eq_getLast r1 hr1ne
            rw [hq1] at this
            exact (Option.some.inj this).symm
          rw [← hgl, List.dropLast_append_getLast]
        have hdrop : out.drop k = v :: r2t := by
          rw [← h]
          have hk2 : k = r1.dropLast.length := by rw [List.length_dropLast]
          rw [hk2, List.drop_left]
        cases fuel' with
        | zero => omega
        | succ f2 =>
          rw [rdp_ne_nil_eq f2 out hone, hloop]
          rw [if_pos hc, htake, hdrop]
          have hrec1 : ramer_douglas_peucker f2 r1 ε = some r1 :=
            ih _ _ _ ht2 h1 f2 (by omega)
          have hrec2 : ramer_douglas_peucker f2 (v :: r2t) ε = some (v :: r2t) :=
            ih _ _ _ hd2 hd1 f2 (by simp at holen ⊢; omega)
          rw [hrec1, hrec2, ← h]
      · -- base case of the first run: out = [first, last]
        rw [if_neg hc] at h
        simp only [Option.some.injEq] at h
        cases fuel' with
        | zero =>
          rw [← h] at hf'
          simp at hf'
        | succ f2 =>
          rw [← h]
          rw [rdp_cons f2 (nthP (p0 :: ps) 0) [nthP (p0 :: ps) ((p0 :: ps).length - 1)] ε]
          have hlp : rdpLoop (rdpD [nthP (p0 :: ps) 0, nthP (p0 :: ps) ((p0 :: ps).length - 1)])
              (([nthP (p0 :: ps) 0, nthP (p0 :: ps) ((p0 :: ps).length - 1)] : List Point).length - 1 - 1)
              = (0, 0) := by
            simp [rdpLoop]
          rw [hlp]
          rw [if_neg (by simpa using not_lt.mpr hε)]
          simp [nthP]

lemma dedup_eval_short :
    dedupPass [((0 : ℝ), 0), (1 / 10, 0)] = [((0 : ℝ), 0)] := by
  have hs : hypot ((1 : ℝ) / 10) 0 = 1 / 10 := by
    rw [hypot, show ((1 : ℝ) / 10) ^ 2 + (0 : ℝ) ^ 2 = (1 / 10) ^ 2 by norm_num,
      Real.sqrt_sq (by norm_num)]
  have hng : ¬ ((1 : ℝ) / 2 < hypot ((1 : ℝ) / 10) 0) := by
    rw [hs]; norm_num
  simp only [dedupPass, dedupAux, List.getLastD]
  norm_num [hng]

lemma rdp_eval_collinear :
    ramer_douglas_peucker 3 [((0 : ℝ), 0), (1, 0), (2, 0)] 0 =
      some [((0 : ℝ), 0), (2, 0)] := by
  have hd : rdpD [((0 : ℝ), 0), (1, 0), (2, 0)] 1 = 0 := by
    show perpendicular_distance (nthP [((0 : ℝ), 0), (1, 0), (2, 0)] 1)
      (nthP [((0 : ℝ), 0), (1, 0), (2, 0)] 0) (nthP [((0 : ℝ), 0), (1, 0), (2, 0)] 2) = 0
    have h0 : nthP [((0 : ℝ), 0), (1, 0), (2, 0)] 0 = (0, 0) := by simp [nthP]
    have h1 : nthP [((0 : ℝ), 0), (1, 0), (2, 0)] 1 = (1, 0) := by simp [nthP]
    have h2 : nthP [((0 : ℝ), 0), (1, 0), (2, 0)] 2 = (2, 0) := by simp [nthP]
    rw [h0, h1, h2]
    unfold perpendicular_distance
    rw [if_neg (by norm_num [Prod.ext_iff])]
    norm_num
  have hloop : rdpLoop (rdpD [((0 : ℝ), 0), (1, 0), (2, 0)])
      (([((0 : ℝ), 0), (1, 0), (2, 0)] : List Point).length - 1 - 1) = (0, 0) := by
    have hl : (([((0 : ℝ), 0), (1, 0), (2, 0)] : List Point).length - 1 - 1) = 1 := by simp
    rw [hl, rdpLoop_succ, hd]
    norm_num [rdpLoop]
  rw [show (3 : ℕ) = 2 + 1 from rfl, rdp_cons, hloop]
  rw [if_neg (by norm_num)]
  simp [nthP]

/-- Claim C1: for every input of at least 2 points and every tolerance
`ε ≥ 0`, `ramer_douglas_peucker` terminates (with fuel `len(points)`,
matching the Python recursion depth) and every point of the input lies
within perpendicular deviation `ε` of some segment of the returned
polyline, deviation measured by the perpendicular distance the
algorithm itself uses. -/
theorem C1_rdp_deviation_bound (points : List Point) (ε : ℝ)
    (h2 : 2 ≤ points.length) (hε : 0 ≤ ε) :
    ∃ out, ramer_douglas_peucker points.length points ε = some out ∧ 2 ≤ out.length ∧
      ∀ p ∈ points, ∃ i, i + 1 < out.length ∧
        perpendicular_distance p (nthP out i) (nthP out (i + 1)) ≤ ε := by
  obtain ⟨out, hout⟩ := rdp_total points.length points ε (by omega) le_rfl hε
  exact ⟨out, hout, (rdp_structure _ _ _ _ h2 hout).2.1, rdp_within _ _ _ _ h2 hout⟩

/-- Witness for C1 on three collinear points with `ε = 0`. -/
theorem C1_rdp_deviation_bound_witness :
    2 ≤ ([((0 : ℝ), 0), (1, 0), (2, 0)] : List Point).length ∧ (0 : ℝ) ≤ 0 ∧
    ∃ out, ramer_douglas_peucker ([((0 : ℝ), 0), (1, 0), (2, 0)] : List Point).length
        [((0 : ℝ), 0), (1, 0), (2, 0)] 0 = some out ∧ 2 ≤ out.length ∧
      ∀ p ∈ ([((0 : ℝ), 0), (1, 0), (2, 0)] : List Point), ∃ i, i + 1 < out.length ∧
        perpendicular_distance p (nthP out i) (nthP out (i + 1)) ≤ 0 :=
  ⟨by simp, le_refl 0, C1_rdp_deviation_bound [((0 : ℝ), 0), (1, 0), (2, 0)] 0 (by simp) (le_refl 0)⟩

/-- Claim C3: RDP is idempotent.  Whenever a run of
`ramer_douglas_peucker` terminates with output `out`, running it again
on `out` with the same tolerance (and the canonical fuel `len(out)`)
returns `out` unchanged.  For `ε < 0` no run terminates, so every
terminating run is covered. -/
theorem C3_rdp_idempotent (points : List Point) (ε : ℝ) (fuel : ℕ) (out : List Point)
    (h2 : 2 ≤ points.length) (h : ramer_douglas_peucker fuel points ε = some out) :
    ramer_douglas_peucker out.length out ε = some out :=
  rdp_idem fuel points ε out h2 h out.length le_rfl

/-- Witness for C3: simplifying three collinear points with `ε = 0`
gives the two endpoints, and re-simplifying that output returns it
unchanged. -/
theorem C3_rdp_idempotent_witness :
    ramer_douglas_peucker 3 [((0 : ℝ), 0), (1, 0), (2, 0)] 0 = some [((0 : ℝ), 0), (2, 0)] ∧
    ramer_douglas_peucker ([((0 : ℝ), 0), (2, 0)] : List Point).length
      [((0 : ℝ), 0), (2, 0)] 0 = some [((0 : ℝ), 0), (2, 0)] :=
  ⟨rdp_eval_collinear,
   C3_rdp_idempotent [((0 : ℝ), 0), (1, 0), (2, 0)] 0 3 _ (by simp) rdp_eval_collinear⟩

/-- Claim C9: every terminating run of `ramer_douglas_peucker` on at
least 2 points returns a subsequence of its input (no invented points,
order preserved) of length at least 2 whose first and last elements
are the first and last elements of the input. -/
theorem C9_rdp_subsequence (points : List Point) (ε : ℝ) (fuel : ℕ) (out : List Point)
    (h2 : 2 ≤ points.length) (h : ramer_douglas_peucker fuel points ε = some out) :
    out.Sublist points ∧ 2 ≤ out.length ∧ out.head? = points.head? ∧
      out.getLast? = points.getLast? :=
  rdp_structure fuel points ε out h2 h

/-- Witness for C9 on three collinear points with `ε = 0`. -/
theorem C9_rdp_subsequence_witness :
    ramer_douglas_peucker 3 [((0 : ℝ), 0), (1, 0), (2, 0)] 0 = some [((0 : ℝ), 0), (2, 0)] ∧
    (([((0 : ℝ), 0), (2, 0)] : List Point).Sublist [((0 : ℝ), 0), (1, 0), (2, 0)] ∧
      2 ≤ ([((0 : ℝ), 0), (2, 0)] : List Point).length ∧
      ([((0 : ℝ), 0), (2, 0)] : List Point).head? =
        ([((0 : ℝ), 0), (1, 0), (2, 0)] : List Point).head? ∧
      ([((0 : ℝ), 0), (2, 0)] : List Point).getLast? =
        ([((0 : ℝ), 0), (1, 0), (2, 0)] : List Point).getLast?) :=
  ⟨rdp_eval_collinear,
   C9_rdp_subsequence [((0 : ℝ), 0), (1, 0), (2, 0)] 0 3 _ (by simp) rdp_eval_collinear⟩

/-- Claim C2 is wrong about the code: the dedup pre-pass of
`simplify_points` always keeps the first point, but it DROPS the last
point of the input whenever that point is within 0.5 units of the last
kept point.  The trailing
`if np.hypot(...) > 0.5: dedup.append(points[-1])` re-append guard in
the source is dead code: when the last point was kept by the loop the
distance is 0, and when it was not, the distance is at most 0.5, so
the append never fires.  Here the input `[(0,0), (0.1,0)]` loses its
last point. -/
theorem C2_dedup_drops_last_point :
    dedupPass [((0 : ℝ), 0), (1 / 10, 0)] = [((0 : ℝ), 0)] ∧
    ((0 : ℝ), (0 : ℝ)) ∈ dedupPass [((0 : ℝ), 0), (1 / 10, 0)] ∧
    ((1 : ℝ) / 10, (0 : ℝ)) ∉ dedupPass [((0 : ℝ), 0), (1 / 10, 0)] := by
  refine ⟨dedup_eval_short, ?_, ?_⟩
  · rw [dedup_eval_short]; simp
  · rw [dedup_eval_short]
    simp [Prod.ext_iff]
